import Mathlib

/-!
Verification of `jm_unmixer` (JoinMarket transaction unmixer).

This file shallowly embeds the core of `jm_unmixer/jmtx.py`:
the classifier `check_potential_joinmarket_tx`, the pairing algorithm
`pair_up_inout_values` / `_pair_up_inout_values` / `gen_bucket_size_dist_pairs`,
the participant views (`taker_value_pair`, `maker_value_pairs`,
`fee_paid_to_pair`), the unmix-level scoring of `UnmixedJoinMarketTx`,
and the Pass-1 input-consumption loop of
`bin/analyze_jmtxs.py::extract_maker_addresses_from_tx`.

Modelling conventions:
* Monetary values are exact rationals (`ℚ`).  The source mixes `Decimal`
  (exact, coming from the RPC JSON) with Python `float` constants; Python
  compares them exactly, and for every comparison performed here the float
  rounding error (≤ 2⁻⁵² relative) is far below the distance to the other
  operand, so exact rationals decide every comparison identically.
* Python exceptions are an `Except` value: `assert` failures,
  `ZeroDivisionError` and `IndexError` are distinct error constructors from
  the typed `Unpairable` exception.
* Python's stable ascending `list.sort()` and numpy's deterministic
  `argsort` are modelled with `List.insertionSort`, a stable ascending sort.
* Loops are structural recursion; the single `while` loop of the pairer is
  run with fuel `num_parties`: the loop body requires `num_pairs_left > 1`
  and every iteration decrements `num_pairs_left` by exactly one, so fuel
  `num_parties` never runs out before the Python loop would exit.
-/

deriving instance DecidableEq for Except

namespace JmUnmixer

/-- A participant group: (input values, output values); `jmtx.py` represents
it as the 2-element list `[cur_inputs, cur_outputs]`. -/
abbrev ValuePair := List ℚ × List ℚ

/-! ### Constants (`jmtx.py` lines 16-21) -/

def MIN_NUM_INPUTS : ℕ := 3
def MIN_NUM_OUTPUTS : ℕ := 3
def MIN_JM_FEE : ℚ := 1 / 1000000
def MAX_JM_FEE : ℚ := 3 / 100
def MIN_MIX_VALUE : ℚ := 1 / 100

/-- The two `Unpairable` raise sites of `_pair_up_inout_values`:
`'taker fees dont add up'` (line 310) and
`'unpairable change values: ...'` (line 318). -/
inductive UnpairableReason where
  | takerFees
  | changeValues
deriving DecidableEq, Repr

/-- Ways the pairing code can terminate abnormally.  Only `.unpairable` is
the typed `Unpairable` exception of `jmtx.py`; the others model `assert`
failures, `ZeroDivisionError` and `IndexError`. -/
inductive PairErr where
  /-- `IndexError` from `most_common(1)[0]` on an empty output list. -/
  | indexError
  /-- `assert txfee >= 0` (line 258). -/
  | assertTxfeeNeg
  /-- `assert num_parties-1 <= len(change_values) <= num_parties` (line 262). -/
  | assertChangeCount
  /-- `assert len(mix_values) == num_pairs_left` (line 305). -/
  | assertMixLen
  /-- `total_jmfee / (num_parties-1)` with one party (line 309). -/
  | zeroDivision
  | unpairable (r : UnpairableReason)
deriving DecidableEq, Repr

/-! ### `get_value_mixed_from_values` (lines 209-220)

`Counter(out_values).most_common(1)[0]` returns the first-seen value of
maximal multiplicity (`Counter` keys are in first-occurrence order and
`most_common`'s sort is stable). -/

/-- Distinct values of `l` in first-occurrence order (the key order of
`collections.Counter(l)`). -/
def counterKeys (l : List ℚ) : List ℚ :=
  l.foldl (fun ks x => if x ∈ ks then ks else ks ++ [x]) []

/-- First-seen element with the (strictly) greatest multiplicity, i.e.
`Counter(l).most_common(1)[0][0]`. -/
def firstModal (l : List ℚ) : Option ℚ :=
  (counterKeys l).foldl
    (fun best k =>
      match best with
      | none => some k
      | some b => if l.count b < l.count k then some k else best)
    none

/-- `get_value_mixed_from_values(in_values, out_values)`; the `in_values`
argument is unused in the source as well.  `.ok none` is Python's
`(None, None)`; `.error .indexError` is `most_common(1)[0]` on an empty
counter. -/
def get_value_mixed_from_values (_in_values out_values : List ℚ) :
    Except PairErr (Option (ℚ × ℕ)) :=
  match firstModal out_values with
  | none => .error .indexError
  | some v =>
    let c := out_values.count v
    if c ≤ 2 then .ok none
    else
      let rest := out_values.filter (fun x => !(x == v))
      match firstModal rest with
      | none => .ok (some (v, c))
      | some v2 => if rest.count v2 = c then .ok none else .ok (some (v, c))

/-! ### `check_potential_joinmarket_tx` (lines 165-189)

The classifier only consults `len(tx.vin)`, `len(tx.vout)` and the value
lists, so it is modelled on the two value lists. -/

def check_potential_joinmarket_tx (vin_values vout_values : List ℚ) :
    Except PairErr (Bool × String) :=
  let num_inputs := vin_values.length
  let num_outputs := vout_values.length
  if num_outputs ≤ MIN_NUM_OUTPUTS then .ok (false, "MIN_NUM_OUTPUTS")
  else if num_inputs ≤ MIN_NUM_INPUTS then .ok (false, "MIN_NUM_INPUTS")
  else
    match get_value_mixed_from_values vin_values vout_values with
    | .error e => .error e
    | .ok none => .ok (false, "no value_mixed")
    | .ok (some (value_mixed, count)) =>
      if value_mixed < MIN_MIX_VALUE then .ok (false, "MIN_MIX_VALUE")
      else if ¬ (2 * count - 1 ≤ num_outputs ∧ num_outputs ≤ 2 * count) then
        .ok (false, "UNUSUAL NUMBER OF OUTPUTS")
      else if num_inputs > 25 then .ok (false, "TOO MANY INPUTS")
      else .ok (true, "")

/-! ### `gen_bucket_size_dist_pairs` (lines 322-329)

`np.indices((B, D))` gives the row-major grid of index pairs, and
`np.argsort(d, axis=None)` enumerates them by increasing
`d[i][j] = i**2 + 0.1 * j**2`.  numpy's argsort is deterministic; it is
modelled with the stable `insertionSort` (the distinct costs decide every
comparison; cost ties exist but no claim depends on their relative order). -/

def bucket_dist_cost (p : ℕ × ℕ) : ℚ :=
  ((p.1 * p.1 : ℕ) : ℚ) + (1 / 10) * ((p.2 * p.2 : ℕ) : ℚ)

/-- Row-major grid of index pairs, as flattened by `np.argsort(d, axis=None)`
together with `divmod(·, d.shape[1])`. -/
def indexGrid (num_bucket_sizes num_dists : ℕ) : List (ℕ × ℕ) :=
  (List.range num_bucket_sizes).flatMap
    (fun i => (List.range num_dists).map (fun j => (i, j)))

/-- The order in which `(bucket index, dist index)` pairs are yielded. -/
def genIdxPairs (num_bucket_sizes num_dists : ℕ) : List (ℕ × ℕ) :=
  (indexGrid num_bucket_sizes num_dists).insertionSort
    (fun p q => bucket_dist_cost p ≤ bucket_dist_cost q)

def gen_bucket_size_dist_pairs (bucket_sizes : List ℕ) (dists : List ℚ) :
    List (ℕ × ℚ) :=
  (genIdxPairs bucket_sizes.length dists.length).map
    (fun p => (bucket_sizes.getD p.1 0, dists.getD p.2 0))

/-! ### The inner search of `_pair_up_inout_values` (lines 269-301) -/

/-- `itertools.combinations(l, k)`: all `k`-element sublists of `l`, in the
lexicographic order itertools uses. -/
def combinations : List ℕ → ℕ → List (List ℕ)
  | _, 0 => [[]]
  | [], _ + 1 => []
  | x :: xs, k + 1 =>
    (combinations xs k).map (fun c => x :: c) ++ combinations xs (k + 1)

/-- `combinations(range(len(in_values)), bucket_size)`. -/
def idxCombinations (n k : ℕ) : List (List ℕ) :=
  combinations (List.range n) k

/-- The `for cidx, change_value in enumerate(change_values)` scan (lines
277-281): running minimum distance (seeded with `cur_max_jmfee`) and the
index achieving it (`-1`, i.e. `none`, when nothing matched). -/
def scan_changes (value_mixed sum_bucket_input : ℚ) (cur_max_jmfee : ℚ)
    (change_values : List ℚ) : ℚ × Option ℕ :=
  change_values.enum.foldl
    (fun acc p =>
      let dist := p.2 + value_mixed - sum_bucket_input
      if MIN_JM_FEE < dist ∧ dist < acc.1 then (dist, some p.1) else acc)
    (cur_max_jmfee, none)

def find_change (value_mixed cur_max_jmfee sum_bucket_input : ℚ)
    (change_values : List ℚ) : Option ℕ :=
  (scan_changes value_mixed sum_bucket_input cur_max_jmfee change_values).2

/-- The `for iidxs in combinations(...)` loop (line 273): first index
combination admitting a matching change output. -/
def find_bucket (value_mixed cur_max_jmfee : ℚ) (in_values change_values : List ℚ) :
    List (List ℕ) → Option (List ℕ × ℕ)
  | [] => none
  | iidxs :: rest =>
    let sum_bucket_input := (iidxs.map (fun i => in_values.getD i 0)).sum
    match find_change value_mixed cur_max_jmfee sum_bucket_input change_values with
    | some cidx => some (iidxs, cidx)
    | none => find_bucket value_mixed cur_max_jmfee in_values change_values rest

/-- The `for bucket_size, cur_max_jmfee in gen_bucket_size_dist_pairs(...)`
loop (line 271): first `(bucket, tolerance)` pair yielding a match. -/
def step_find (value_mixed : ℚ) (in_values change_values : List ℚ) :
    List (ℕ × ℚ) → Option (List ℕ × ℕ)
  | [] => none
  | (bucket_size, cur_max_jmfee) :: rest =>
    match find_bucket value_mixed cur_max_jmfee in_values change_values
        (idxCombinations in_values.length bucket_size) with
    | some r => some r
    | none => step_find value_mixed in_values change_values rest

/-- `for iidx in reversed(iidxs): in_values = in_values[:iidx] + in_values[iidx+1:]`
(lines 285-287): delete the selected positions, highest index first. -/
def removeIdxs (l : List ℚ) (iidxs : List ℕ) : List ℚ :=
  iidxs.reverse.foldl (fun a i => a.eraseIdx i) l

/-- The mutable locals of the `while num_pairs_left > 1` loop. -/
structure PairState where
  npl : ℕ                      -- num_pairs_left
  inv : List ℚ                 -- in_values
  mix : List ℚ                 -- mix_values
  chg : List ℚ                 -- change_values
  pairs : List ValuePair
deriving DecidableEq, Repr

/-- One successful round of the search (lines 282-295): locate a pair, pull
the matched inputs out of `in_values` (removal by descending index, exactly
as the source), pop one mix output and delete the matched change output. -/
def pair_step (gen : List (ℕ × ℚ)) (value_mixed : ℚ) (s : PairState) :
    Option PairState :=
  match step_find value_mixed s.inv s.chg gen with
  | none => none
  | some (iidxs, cidx) =>
    let cur_inputs := (iidxs.map (fun i => s.inv.getD i 0)).reverse
    let new_inv := removeIdxs s.inv iidxs
    let cur_outputs := [s.mix.getLastD 0, s.chg.getD cidx 0]
    some { npl := s.npl - 1
           inv := new_inv
           mix := s.mix.dropLast
           chg := s.chg.eraseIdx cidx
           pairs := s.pairs ++ [(cur_inputs, cur_outputs)] }

/-- `while num_pairs_left > 1: ...` (lines 269-301), run with fuel.  Every
iteration of the Python loop either finds a pair (decrementing
`num_pairs_left`) or breaks, so fuel `num_parties` is never exhausted while
the Python loop would still run. -/
def pair_loop (gen : List (ℕ × ℚ)) (value_mixed : ℚ) :
    ℕ → PairState → PairState
  | 0, s => s
  | fuel + 1, s =>
    if s.npl > 1 then
      match pair_step gen value_mixed s with
      | none => s
      | some s' => pair_loop gen value_mixed fuel s'
    else s

/-! ### `_pair_up_inout_values` (lines 242-320) -/

/-- Lines 303-320 of `_pair_up_inout_values`: the taker branch, the final
leftover check and the return.  In the taker branch the source clears
`in_values` / `mix_values` / `change_values` before the leftover check, so
that check trivially passes there. -/
def finish_pairs (txfee : ℚ) (num_parties : ℕ) (st : PairState) :
    Except PairErr (List ValuePair) :=
  if st.npl = 1 then
    if st.mix.length ≠ st.npl then .error .assertMixLen
    else if num_parties = 1 then .error .zeroDivision
    else
      let total_jmfee := st.inv.sum - (st.chg.sum + st.mix.sum) - txfee
      let per_maker := total_jmfee / ((num_parties : ℚ) - 1)
      if ¬ (MIN_JM_FEE < per_maker ∧ per_maker < MAX_JM_FEE) then
        .error (.unpairable .takerFees)
      else .ok ((st.inv, st.mix ++ st.chg) :: st.pairs)
  else if st.mix ≠ [] ∨ st.inv ≠ [] ∨ st.chg ≠ [] then
    .error (.unpairable .changeValues)
  else .ok st.pairs

/-- `_pair_up_inout_values(in_values, out_values, value_mixed)`.

With `value_mixed = None` the repeated `change_values.remove(None)` fails at
once, so all outputs become change outputs and no mix outputs exist; the
`vmopt.getD 0` default below is never consulted in that case because the
search loop and the taker branch both require at least one mix output. -/
def _pair_up_inout_values (in_values out_values : List ℚ) (vmopt : Option ℚ) :
    Except PairErr (List ValuePair) :=
  let vm := vmopt.getD 0
  let mix_values := match vmopt with
    | none => []
    | some v => out_values.filter (fun x => x == v)
  let change_values :=
    (match vmopt with
      | none => out_values
      | some v => out_values.filter (fun x => !(x == v))).insertionSort (· ≤ ·)
  let num_parties := mix_values.length
  let txfee := in_values.sum - out_values.sum
  if txfee < 0 then .error .assertTxfeeNeg
  else if ¬ (num_parties - 1 ≤ change_values.length ∧
             change_values.length ≤ num_parties) then .error .assertChangeCount
  else
    -- bucket_sizes = range(1, len(in_values) - num_pairs_left + 2)
    let bucket_sizes := List.range' 1 (in_values.length + 1 - num_parties)
    -- dists = (MIN_JM_FEE * 2**np.arange(4, 40)) filtered to < MAX_JM_FEE
    let dists := ((List.range' 4 36).map
      (fun k => MIN_JM_FEE * ((2 ^ k : ℕ) : ℚ))).filter (fun d => d < MAX_JM_FEE)
    let gen := gen_bucket_size_dist_pairs bucket_sizes dists
    let st := pair_loop gen vm num_parties
      { npl := num_parties, inv := in_values, mix := mix_values,
        chg := change_values, pairs := [] }
    finish_pairs txfee num_parties st

/-- `pair_up_inout_values(in_values, out_values)` with the default
`value_mixed=None`, which computes the mix value from the outputs. -/
def pair_up_inout_values (in_values out_values : List ℚ) :
    Except PairErr (List ValuePair) :=
  match get_value_mixed_from_values in_values out_values with
  | .error e => .error e
  | .ok vc => _pair_up_inout_values in_values out_values (vc.map Prod.fst)

/-! ### Participant views (`JoinMarketTx`, lines 67-91, 222-226) -/

def fee_paid_to_pair (p : ValuePair) : ℚ := p.2.sum - p.1.sum

def fee_paid_by_pair (p : ValuePair) : ℚ := -(fee_paid_to_pair p)

/-- `[ p for p in self.pairs if float(fee_paid_by_pair(p)) > 0 ][0]`; the
`float` cast cannot change the sign (see module docstring), and the `[0]`
indexing is the `head?`. -/
def taker_value_pair (pairs : List ValuePair) : Option ValuePair :=
  (pairs.filter (fun p => 0 < fee_paid_by_pair p)).head?

def maker_value_pairs (pairs : List ValuePair) : List ValuePair :=
  pairs.filter (fun p => 0 ≤ fee_paid_to_pair p)

/-! ## Generic list facts used by the search invariants -/

lemma multiset_eq_getD_cons_eraseIdx :
    ∀ {l : List ℚ} {j : ℕ}, j < l.length →
      (l : Multiset ℚ) = l.getD j 0 ::ₘ (l.eraseIdx j : Multiset ℚ) := by
  intro l
  induction l with
  | nil => intro j h; simp at h
  | cons x xs ih =>
    intro j h
    cases j with
    | zero => simp
    | succ j' =>
      have hj : j' < xs.length := by simpa using h
      have hx := ih hj
      calc ((x :: xs : List ℚ) : Multiset ℚ)
          = x ::ₘ (xs : Multiset ℚ) := by simp
        _ = x ::ₘ (xs.getD j' 0 ::ₘ (xs.eraseIdx j' : Multiset ℚ)) := by rw [← hx]
        _ = xs.getD j' 0 ::ₘ (x ::ₘ (xs.eraseIdx j' : Multiset ℚ)) := Multiset.cons_swap ..
        _ = (x :: xs).getD (j' + 1) 0 ::ₘ ((x :: xs).eraseIdx (j' + 1) : Multiset ℚ) := by
            simp [List.eraseIdx_cons_succ]

lemma getD_eraseIdx_of_lt :
    ∀ {l : List ℚ} {i j : ℕ}, i < j → (l.eraseIdx j).getD i 0 = l.getD i 0 := by
  intro l
  induction l with
  | nil => intro i j _; simp
  | cons x xs ih =>
    intro i j hij
    cases j with
    | zero => omega
    | succ j' =>
      cases i with
      | zero => simp [List.eraseIdx_cons_succ]
      | succ i' =>
        have h2 : i' < j' := by omega
        simpa [List.eraseIdx_cons_succ, List.getD] using ih h2

lemma combinations_sublist :
    ∀ {l : List ℕ} {k : ℕ} {c : List ℕ}, c ∈ combinations l k → c.Sublist l := by
  intro l
  induction l with
  | nil =>
    intro k c hc
    cases k with
    | zero => simp [combinations] at hc; simp [hc]
    | succ k' => simp [combinations] at hc
  | cons x xs ih =>
    intro k c hc
    cases k with
    | zero => simp [combinations] at hc; simp [hc]
    | succ k' =>
      rw [combinations, List.mem_append] at hc
      rcases hc with hc | hc
      · rcases List.mem_map.mp hc with ⟨c', hc', rfl⟩
        exact (ih hc').cons₂ x
      · exact (ih hc).cons x

lemma mem_idxCombinations {n k : ℕ} {c : List ℕ} (hc : c ∈ idxCombinations n k) :
    c.Pairwise (· < ·) ∧ ∀ i ∈ c, i < n := by
  have hsub : c.Sublist (List.range n) := combinations_sublist hc
  exact ⟨(List.pairwise_lt_range n).sublist hsub,
    fun i hi => List.mem_range.mp (hsub.mem hi)⟩

/-- Removing positions `iidxs` (strictly increasing, in-range) by erasing from
the highest index down — exactly the `for iidx in reversed(iidxs)` loop —
splits the list into the selected values and the remainder. -/
lemma removeIdxs_multiset :
    ∀ {iidxs : List ℕ}, ∀ {l : List ℚ},
      iidxs.Pairwise (· < ·) → (∀ i ∈ iidxs, i < l.length) →
      (l : Multiset ℚ) =
        (iidxs.map (fun i => l.getD i 0) : Multiset ℚ) +
        (removeIdxs l iidxs : Multiset ℚ) := by
  intro iidxs
  induction iidxs using List.reverseRecOn with
  | nil => intro l _ _; simp [removeIdxs]
  | append_singleton ys j ih =>
    intro l hpw hbd
    have hys : ys.Pairwise (· < ·) := (List.pairwise_append.mp hpw).1
    have hlt : ∀ y ∈ ys, y < j := by
      intro y hy
      exact (List.pairwise_append.mp hpw).2.2 y hy j (by simp)
    have hj : j < l.length := hbd j (by simp)
    have hlen : (l.eraseIdx j).length = l.length - 1 := by
      rw [List.length_eraseIdx]; simp [hj]
    have hbd' : ∀ i ∈ ys, i < (l.eraseIdx j).length := by
      intro i hi
      have h1 := hlt i hi
      omega
    have hmapeq : ys.map (fun i => (l.eraseIdx j).getD i 0) =
        ys.map (fun i => l.getD i 0) := by
      apply List.map_congr_left
      intro i hi
      exact getD_eraseIdx_of_lt (hlt i hi)
    have hfold : removeIdxs l (ys ++ [j]) = removeIdxs (l.eraseIdx j) ys := by
      simp [removeIdxs]
    have ihl := ih hys hbd'
    rw [hmapeq] at ihl
    calc (l : Multiset ℚ)
        = l.getD j 0 ::ₘ (l.eraseIdx j : Multiset ℚ) :=
          multiset_eq_getD_cons_eraseIdx hj
      _ = l.getD j 0 ::ₘ ((ys.map (fun i => l.getD i 0) : Multiset ℚ) +
            (removeIdxs (l.eraseIdx j) ys : Multiset ℚ)) := by
          rw [← ihl]
      _ = ((ys ++ [j]).map (fun i => l.getD i 0) : Multiset ℚ) +
            (removeIdxs l (ys ++ [j]) : Multiset ℚ) := by
          rw [hfold]
          simp only [← Multiset.singleton_add, List.map_append, List.map_cons,
            List.map_nil, ← Multiset.coe_add, ← Multiset.coe_singleton]
          abel

/-! ## Soundness of the inner search -/

/-- What acceptance at change index `cidx` means: the index is in range and
`dist = change_value + value_mixed - sum_bucket_input` lies strictly between
`MIN_JM_FEE` and the current tolerance. -/
lemma find_change_spec {vm cmax sumb : ℚ} {chgs : List ℚ} {cidx : ℕ}
    (h : find_change vm cmax sumb chgs = some cidx) :
    cidx < chgs.length ∧
    MIN_JM_FEE < chgs.getD cidx 0 + vm - sumb ∧
    chgs.getD cidx 0 + vm - sumb < cmax := by
  have key : (fun acc : ℚ × Option ℕ =>
      acc.1 ≤ cmax ∧ (acc.2 = none → acc.1 = cmax) ∧
      ∀ k, acc.2 = some k → k < chgs.length ∧
        MIN_JM_FEE < chgs.getD k 0 + vm - sumb ∧
        chgs.getD k 0 + vm - sumb = acc.1 ∧
        chgs.getD k 0 + vm - sumb < cmax)
      (scan_changes vm sumb cmax chgs) := by
    unfold scan_changes
    refine @List.foldlRecOn (ℚ × Option ℕ) (ℕ × ℚ)
      (fun acc => acc.1 ≤ cmax ∧ (acc.2 = none → acc.1 = cmax) ∧
        ∀ k, acc.2 = some k → k < chgs.length ∧
          MIN_JM_FEE < chgs.getD k 0 + vm - sumb ∧
          chgs.getD k 0 + vm - sumb = acc.1 ∧
          chgs.getD k 0 + vm - sumb < cmax)
      chgs.enum _ (cmax, none) ?_ ?_
    · exact ⟨le_refl _, fun _ => rfl, fun k hk => by simp at hk⟩
    · intro acc hacc p hp
      have hpm : p.1 < chgs.length ∧ chgs.getD p.1 0 = p.2 := by
        have h1 := List.mem_enum_iff_getElem?.mp hp
        have h2 : p.1 < chgs.length := (List.getElem?_eq_some_iff.mp h1).1
        refine ⟨h2, ?_⟩
        rw [List.getD_eq_getElem chgs 0 h2]
        exact Option.some_injective _ ((List.getElem?_eq_getElem h2).symm.trans h1)
      by_cases hcond : MIN_JM_FEE < p.2 + vm - sumb ∧ p.2 + vm - sumb < acc.1
      · simp only [hcond, and_self, if_true]
        rcases hacc with ⟨hle, hnone, hsome⟩
        have hlt : p.2 + vm - sumb < cmax := by
          rcases hx : acc.2 with _ | k
          · rw [hnone hx] at hcond; exact hcond.2
          · rcases hsome k hx with ⟨_, _, heq, hklt⟩
            calc p.2 + vm - sumb < acc.1 := hcond.2
              _ = chgs.getD k 0 + vm - sumb := heq.symm
              _ < cmax := hklt
        refine ⟨le_of_lt (lt_of_lt_of_le hcond.2 hle), by simp, ?_⟩
        intro k hk
        cases hk
        exact ⟨hpm.1, by rw [hpm.2]; exact hcond.1, by rw [hpm.2],
          by rw [hpm.2]; exact hlt⟩
      · simp only [hcond, if_false]
        exact hacc
  rcases key with ⟨_, _, hsome⟩
  have h' : (scan_changes vm sumb cmax chgs).2 = some cidx := h
  rcases hsome cidx h' with ⟨h1, h2, _, h4⟩
  exact ⟨h1, h2, h4⟩

lemma find_bucket_spec {vm cmax : ℚ} {inv chgs : List ℚ} {iidxs : List ℕ}
    {cidx : ℕ} :
    ∀ {combos : List (List ℕ)},
      find_bucket vm cmax inv chgs combos = some (iidxs, cidx) →
      iidxs ∈ combos ∧
      find_change vm cmax ((iidxs.map (fun i => inv.getD i 0)).sum) chgs
        = some cidx := by
  intro combos
  induction combos with
  | nil => intro h; simp [find_bucket] at h
  | cons c rest ih =>
    intro h
    rw [find_bucket] at h
    rcases hfc : find_change vm cmax ((c.map (fun i => inv.getD i 0)).sum) chgs
      with _ | k
    · rw [hfc] at h
      rcases ih h with ⟨h1, h2⟩
      exact ⟨List.mem_cons_of_mem c h1, h2⟩
    · rw [hfc] at h
      injection h with h
      injection h with ha hb
      subst ha; subst hb
      exact ⟨List.mem_cons_self .., hfc⟩

lemma step_find_spec {vm : ℚ} {inv chgs : List ℚ} {iidxs : List ℕ} {cidx : ℕ} :
    ∀ {gen : List (ℕ × ℚ)},
      step_find vm inv chgs gen = some (iidxs, cidx) →
      ∃ bs cmax, (bs, cmax) ∈ gen ∧
        iidxs ∈ idxCombinations inv.length bs ∧
        find_change vm cmax ((iidxs.map (fun i => inv.getD i 0)).sum) chgs
          = some cidx := by
  intro gen
  induction gen with
  | nil => intro h; simp [step_find] at h
  | cons pr rest ih =>
    intro h
    rw [step_find] at h
    rcases hfb : find_bucket vm pr.2 inv chgs
        (idxCombinations inv.length pr.1) with _ | r
    · rw [hfb] at h
      rcases ih h with ⟨bs, cmax, h1, h2, h3⟩
      exact ⟨bs, cmax, List.mem_cons_of_mem pr h1, h2, h3⟩
    · rw [hfb] at h
      injection h with h
      subst h
      rcases find_bucket_spec hfb with ⟨h1, h2⟩
      exact ⟨pr.1, pr.2, by simp, h1, h2⟩

/-- Every tolerance yielded by the generator is one of the supplied `dists`. -/
lemma gen_snd_mem_dists {bss : List ℕ} {ds : List ℚ} {pr : ℕ × ℚ}
    (h : pr ∈ gen_bucket_size_dist_pairs bss ds) : pr.2 ∈ ds := by
  rcases List.mem_map.mp h with ⟨p, hp, rfl⟩
  have hgrid : p ∈ indexGrid bss.length ds.length :=
    (List.perm_insertionSort _ _).mem_iff.mp hp
  rcases List.mem_flatMap.mp hgrid with ⟨i, _, hj⟩
  rcases List.mem_map.mp hj with ⟨j, hjr, rfl⟩
  have hjlt : j < ds.length := List.mem_range.mp hjr
  simp only
  rw [List.getD_eq_getElem ds 0 hjlt]
  exact List.getElem_mem hjlt

/-! ## Invariants of the pairing loop -/

/-- Multiset of input values accounted for by a loop state: inputs already
locked into pairs plus the remaining `in_values`. -/
def loopInputs (s : PairState) : Multiset ℚ :=
  (s.pairs.flatMap (fun p => p.1) : Multiset ℚ) + (s.inv : Multiset ℚ)

/-- Multiset of output values accounted for by a loop state: outputs already
locked into pairs plus the remaining mix and change outputs. -/
def loopOutputs (s : PairState) : Multiset ℚ :=
  (s.pairs.flatMap (fun p => p.2) : Multiset ℚ) + (s.mix : Multiset ℚ) +
    (s.chg : Multiset ℚ)

lemma pair_step_spec {gen : List (ℕ × ℚ)} {vm : ℚ} {s s' : PairState}
    (HG : ∀ pr ∈ gen, pr.2 < MAX_JM_FEE)
    (hmix : s.mix ≠ [])
    (hvm : ∀ x ∈ s.mix, x = vm)
    (h : pair_step gen vm s = some s') :
    s'.npl = s.npl - 1 ∧
    s'.mix = s.mix.dropLast ∧
    loopInputs s' = loopInputs s ∧
    loopOutputs s' = loopOutputs s ∧
    ∃ p, s'.pairs = s.pairs ++ [p] ∧
      MIN_JM_FEE < fee_paid_to_pair p ∧ fee_paid_to_pair p < MAX_JM_FEE := by
  rw [pair_step] at h
  rcases hsf : step_find vm s.inv s.chg gen with _ | r
  · rw [hsf] at h; exact absurd h (by simp)
  · rw [hsf] at h
    rcases r with ⟨iidxs, cidx⟩
    injection h with h
    subst h
    rcases step_find_spec hsf with ⟨bs, cmax, hgen, hcomb, hfc⟩
    rcases mem_idxCombinations hcomb with ⟨hpw, hbd⟩
    rcases find_change_spec hfc with ⟨hclt, hmin, hmax⟩
    have hcmax : cmax < MAX_JM_FEE := HG (bs, cmax) hgen
    have hinv : (s.inv : Multiset ℚ) =
        (iidxs.map (fun i => s.inv.getD i 0) : Multiset ℚ) +
        (removeIdxs s.inv iidxs : Multiset ℚ) := removeIdxs_multiset hpw hbd
    have hlast : s.mix.getLastD 0 = vm :=
      hvm _ (by
        rw [List.getLastD_eq_getLast? 0 s.mix, List.getLast?_eq_getLast s.mix hmix]
        exact List.getLast_mem hmix)
    have hmixsplit : (s.mix : Multiset ℚ) =
        s.mix.getLastD 0 ::ₘ (s.mix.dropLast : Multiset ℚ) := by
      rw [List.getLastD_eq_getLast? 0 s.mix, List.getLast?_eq_getLast s.mix hmix]
      conv_lhs => rw [← List.dropLast_concat_getLast hmix]
      rw [Multiset.cons_coe, Multiset.coe_eq_coe]
      exact List.perm_append_singleton _ _
    have hchgsplit : (s.chg : Multiset ℚ) =
        s.chg.getD cidx 0 ::ₘ (s.chg.eraseIdx cidx : Multiset ℚ) :=
      multiset_eq_getD_cons_eraseIdx hclt
    refine ⟨rfl, rfl, ?_, ?_, ?_⟩
    · show ((s.pairs ++ [((iidxs.map (fun i => s.inv.getD i 0)).reverse,
        [s.mix.getLastD 0, s.chg.getD cidx 0])]).flatMap (fun p => p.1) : Multiset ℚ)
        + (removeIdxs s.inv iidxs : Multiset ℚ) = loopInputs s
      rw [loopInputs, List.flatMap_append, hinv]
      apply Multiset.ext.mpr
      intro a
      simp [List.count_append, List.count_reverse]
    · show ((s.pairs ++ [((iidxs.map (fun i => s.inv.getD i 0)).reverse,
        [s.mix.getLastD 0, s.chg.getD cidx 0])]).flatMap (fun p => p.2) : Multiset ℚ)
        + (s.mix.dropLast : Multiset ℚ) + (s.chg.eraseIdx cidx : Multiset ℚ)
        = loopOutputs s
      rw [loopOutputs, List.flatMap_append, hmixsplit, hchgsplit]
      apply Multiset.ext.mpr
      intro a
      simp [List.count_append, List.count_cons]
      omega
    · refine ⟨_, rfl, ?_, ?_⟩
      · show MIN_JM_FEE < ([s.mix.getLastD 0, s.chg.getD cidx 0].sum : ℚ) -
          ((iidxs.map (fun i => s.inv.getD i 0)).reverse.sum)
        rw [List.sum_reverse, hlast]
        calc MIN_JM_FEE < s.chg.getD cidx 0 + vm -
              (iidxs.map (fun i => s.inv.getD i 0)).sum := hmin
          _ = [vm, s.chg.getD cidx 0].sum -
              (iidxs.map (fun i => s.inv.getD i 0)).sum := by simp; ring
      · show ([s.mix.getLastD 0, s.chg.getD cidx 0].sum : ℚ) -
          ((iidxs.map (fun i => s.inv.getD i 0)).reverse.sum) < MAX_JM_FEE
        rw [List.sum_reverse, hlast]
        calc ([vm, s.chg.getD cidx 0].sum : ℚ) -
              (iidxs.map (fun i => s.inv.getD i 0)).sum
            = s.chg.getD cidx 0 + vm -
              (iidxs.map (fun i => s.inv.getD i 0)).sum := by simp; ring
          _ < cmax := hmax
          _ < MAX_JM_FEE := hcmax

lemma pair_loop_spec {gen : List (ℕ × ℚ)} {vm : ℚ}
    (HG : ∀ pr ∈ gen, pr.2 < MAX_JM_FEE) :
    ∀ (fuel : ℕ) (s : PairState),
      s.mix.length = s.npl → (∀ x ∈ s.mix, x = vm) →
      (pair_loop gen vm fuel s).mix.length = (pair_loop gen vm fuel s).npl ∧
      (∀ x ∈ (pair_loop gen vm fuel s).mix, x = vm) ∧
      loopInputs (pair_loop gen vm fuel s) = loopInputs s ∧
      loopOutputs (pair_loop gen vm fuel s) = loopOutputs s ∧
      (∀ p ∈ (pair_loop gen vm fuel s).pairs, p ∈ s.pairs ∨
        (MIN_JM_FEE < fee_paid_to_pair p ∧ fee_paid_to_pair p < MAX_JM_FEE)) ∧
      (1 ≤ s.npl → 1 ≤ (pair_loop gen vm fuel s).npl) ∧
      (s.npl ≤ 1 → pair_loop gen vm fuel s = s) := by
  intro fuel
  induction fuel with
  | zero =>
    intro s h1 h2
    exact ⟨h1, h2, rfl, rfl, fun p hp => .inl hp, fun h => h, fun _ => rfl⟩
  | succ fuel ih =>
    intro s h1 h2
    rw [pair_loop]
    by_cases hnpl : s.npl > 1
    · rw [if_pos hnpl]
      rcases hps : pair_step gen vm s with _ | s'
      · exact ⟨h1, h2, rfl, rfl, fun p hp => .inl hp, fun h => h, fun _ => rfl⟩
      · have hmixne : s.mix ≠ [] := by
          intro hc
          rw [hc] at h1
          simp at h1
          omega
        rcases pair_step_spec HG hmixne h2 hps with
          ⟨hnpl', hmix', hin', hout', p0, hpairs', hp0min, hp0max⟩
        have h1' : s'.mix.length = s'.npl := by
          rw [hmix', hnpl', List.length_dropLast, h1]
        have h2' : ∀ x ∈ s'.mix, x = vm := by
          intro x hx
          rw [hmix'] at hx
          exact h2 x (List.dropLast_sublist s.mix |>.mem hx)
        rcases ih s' h1' h2' with ⟨g1, g2, g3, g4, g5, g6, g7⟩
        refine ⟨g1, g2, g3.trans hin', g4.trans hout', ?_, ?_, ?_⟩
        · intro p hp
          rcases g5 p hp with hmem | hgood
          · rw [hpairs'] at hmem
            rcases List.mem_append.mp hmem with hmem | hmem
            · exact .inl hmem
            · simp at hmem
              subst hmem
              exact .inr ⟨hp0min, hp0max⟩
          · exact .inr hgood
        · intro _
          exact g6 (by omega)
        · intro hle; omega
    · rw [if_neg hnpl]
      exact ⟨h1, h2, rfl, rfl, fun p hp => .inl hp, fun h => h, fun _ => rfl⟩

/-! ## Specification of a successful pairing -/

lemma MIN_JM_FEE_pos : (0 : ℚ) < MIN_JM_FEE := by norm_num [MIN_JM_FEE]

/-- Inverting the mix-value getter: a returned pair is the first-seen modal
value together with its multiplicity, which exceeds 2. -/
lemma get_value_mixed_inv {i o : List ℚ} {v : ℚ} {c : ℕ}
    (h : get_value_mixed_from_values i o = .ok (some (v, c))) :
    c = o.count v ∧ 2 < c := by
  rw [get_value_mixed_from_values] at h
  rcases hm : firstModal o with _ | v0
  · rw [hm] at h; exact absurd h (by simp)
  · rw [hm] at h
    simp only at h
    by_cases hc : o.count v0 ≤ 2
    · rw [if_pos hc] at h; exact absurd h (by simp)
    · rw [if_neg hc] at h
      rcases hm2 : firstModal (o.filter (fun x => !(x == v0))) with _ | v2
      · rw [hm2] at h
        injection h with h
        injection h with h
        injection h with h1 h2
        subst h1; subst h2
        exact ⟨rfl, by omega⟩
      · rw [hm2] at h
        simp only at h
        by_cases htie : (o.filter (fun x => !(x == v0))).count v2 = o.count v0
        · rw [if_pos htie] at h; exact absurd h (by simp)
        · rw [if_neg htie] at h
          injection h with h
          injection h with h
          injection h with h1 h2
          subst h1; subst h2
          exact ⟨rfl, by omega⟩

lemma filter_beq_length_eq_count (o : List ℚ) (v : ℚ) :
    (o.filter (fun x => x == v)).length = o.count v := by
  rw [List.count_eq_countP, List.countP_eq_length_filter]

/-- The `finish_pairs` tail on a well-formed loop result: success returns the
taker pair consed in front, and the taker's net flow is strictly negative. -/
lemma finish_pairs_ok_spec {txfee : ℚ} {np : ℕ} {st : PairState}
    {ps : List ValuePair}
    (hfee : 0 ≤ txfee) (hnp : 2 ≤ np) (hnpl : 1 ≤ st.npl)
    (hmixlen : st.mix.length = st.npl)
    (h : finish_pairs txfee np st = .ok ps) :
    ps = (st.inv, st.mix ++ st.chg) :: st.pairs ∧
    fee_paid_to_pair (st.inv, st.mix ++ st.chg) < 0 := by
  rw [finish_pairs] at h
  by_cases h1 : st.npl = 1
  · rw [if_pos h1] at h
    rw [if_neg (by omega : ¬ st.mix.length ≠ st.npl)] at h
    rw [if_neg (by omega : ¬ np = 1)] at h
    set total_jmfee := st.inv.sum - (st.chg.sum + st.mix.sum) - txfee with htj
    by_cases hg : MIN_JM_FEE < total_jmfee / ((np : ℚ) - 1) ∧
        total_jmfee / ((np : ℚ) - 1) < MAX_JM_FEE
    · rw [if_neg (by simpa using hg)] at h
      injection h with h
      refine ⟨h.symm, ?_⟩
      have hd : (0 : ℚ) < (np : ℚ) - 1 := by
        have : (2 : ℚ) ≤ (np : ℚ) := by exact_mod_cast hnp
        linarith
      have htjpos : 0 < total_jmfee := by
        have h2 := (lt_div_iff₀ hd).mp hg.1
        nlinarith [MIN_JM_FEE_pos]
      rw [fee_paid_to_pair]
      simp only [List.sum_append]
      rw [htj] at htjpos
      linarith
    · rw [if_pos (by simpa using hg)] at h
      exact absurd h (by simp)
  · rw [if_neg h1] at h
    have hne : st.mix ≠ [] := by
      intro hc
      rw [hc] at hmixlen
      simp at hmixlen
      omega
    rw [if_pos (.inl hne)] at h
    exact absurd h (by simp)

/-- With `value_mixed = None` there are no mix outputs, the search loop has
zero parties and does nothing, so success forces both value lists empty. -/
lemma core_none_out_nil {in_values out_values : List ℚ} {ps : List ValuePair}
    (h : _pair_up_inout_values in_values out_values none = .ok ps) :
    out_values = [] := by
  rw [_pair_up_inout_values.eq_def] at h
  simp only at h
  split at h
  · exact absurd h (by simp)
  split at h
  · exact absurd h (by simp)
  simp only [List.length_nil, pair_loop, finish_pairs] at h
  by_cases hne : (out_values.insertionSort (· ≤ ·)) = []
  · have hlen := (List.perm_insertionSort (· ≤ ·) out_values).length_eq
    rw [hne] at hlen
    exact List.eq_nil_of_length_eq_zero hlen.symm
  · rw [if_neg (by simp)] at h
    rw [if_pos (by
      refine .inr (.inr ?_)
      simpa using hne)] at h
    exact absurd h (by simp)

/-- Anything a run of `pair_up_inout_values` returns with `.ok` satisfies:
the group inputs repartition the input multiset, the group outputs
repartition the output multiset, the head group (the taker) has strictly
negative net flow, and every other group's net flow lies strictly between
`MIN_JM_FEE` and `MAX_JM_FEE`. -/
lemma pair_up_ok_spec {in_values out_values : List ℚ} {ps : List ValuePair}
    (h : pair_up_inout_values in_values out_values = .ok ps) :
    ((ps.flatMap (fun p => p.1) : List ℚ) : Multiset ℚ) =
      (in_values : Multiset ℚ) ∧
    ((ps.flatMap (fun p => p.2) : List ℚ) : Multiset ℚ) =
      (out_values : Multiset ℚ) ∧
    ∃ t ms, ps = t :: ms ∧ fee_paid_to_pair t < 0 ∧
      ∀ p ∈ ms, MIN_JM_FEE < fee_paid_to_pair p ∧
        fee_paid_to_pair p < MAX_JM_FEE := by
  rw [pair_up_inout_values] at h
  rcases hg : get_value_mixed_from_values in_values out_values with e | vc
  · rw [hg] at h; exact absurd h (by simp)
  rw [hg] at h
  rcases vc with _ | ⟨vm, c⟩
  · simp only at h
    rw [show Option.map Prod.fst (none : Option (ℚ × ℕ)) = none from rfl] at h
    have hout : out_values = [] := core_none_out_nil h
    rw [hout] at hg
    exact absurd hg (by simp [get_value_mixed_from_values, firstModal,
      counterKeys])
  -- `value_mixed = some vm`, with multiplicity `c = count > 2`.
  rcases get_value_mixed_inv hg with ⟨hc, hc2⟩
  simp only at h
  rw [show Option.map Prod.fst (some (vm, c)) = some vm from rfl] at h
  rw [_pair_up_inout_values.eq_def] at h
  simp only [Option.getD_some] at h
  split at h
  · exact absurd h (by simp)
  split at h
  · exact absurd h (by simp)
  rename_i hfee hcnt
  -- facts about the initial state
  have hmixlen0 : (out_values.filter (fun x => x == vm)).length = c := by
    rw [filter_beq_length_eq_count, hc]
  have hvm0 : ∀ x ∈ out_values.filter (fun x => x == vm), x = vm := by
    intro x hx
    have := (List.mem_filter.mp hx).2
    exact eq_of_beq this
  have HG : ∀ pr ∈ gen_bucket_size_dist_pairs
      (List.range' 1 (in_values.length + 1 -
        (out_values.filter (fun x => x == vm)).length))
      (((List.range' 4 36).map
        (fun k => MIN_JM_FEE * ((2 ^ k : ℕ) : ℚ))).filter
          (fun d => d < MAX_JM_FEE)),
      pr.2 < MAX_JM_FEE := by
    intro pr hpr
    have hmem := gen_snd_mem_dists hpr
    have := (List.mem_filter.mp hmem).2
    exact of_decide_eq_true this
  have hloop := pair_loop_spec HG (out_values.filter (fun x => x == vm)).length
    { npl := (out_values.filter (fun x => x == vm)).length,
      inv := in_values,
      mix := out_values.filter (fun x => x == vm),
      chg := (out_values.filter (fun x => !(x == vm))).insertionSort (· ≤ ·),
      pairs := [] } rfl hvm0
  rcases hloop with ⟨l1, l2, l3, l4, l5, l6, l7⟩
  have hnp2 : 2 ≤ (out_values.filter (fun x => x == vm)).length := by omega
  have hnpl1 := l6 (by
    show 1 ≤ (out_values.filter (fun x => x == vm)).length
    omega)
  rcases finish_pairs_ok_spec (by push_neg at hfee; linarith [hfee] :
      (0:ℚ) ≤ in_values.sum - out_values.sum)
    hnp2 hnpl1 l1 h with ⟨hps, hneg⟩
  subst hps
  refine ⟨?_, ?_, _, _, rfl, hneg, ?_⟩
  · -- input conservation
    have := l3
    rw [loopInputs, loopInputs] at this
    simp only [List.flatMap_nil] at this
    apply Multiset.ext.mpr
    intro a
    have hcount := congrArg (Multiset.count a) this
    simp [List.count_append] at hcount ⊢
    omega
  · -- output conservation
    have := l4
    rw [loopOutputs, loopOutputs] at this
    simp only [List.flatMap_nil] at this
    have hsorted : ((out_values.filter
        (fun x => !(x == vm))).insertionSort (· ≤ ·) : Multiset ℚ) =
        (out_values.filter (fun x => !(x == vm)) : Multiset ℚ) :=
      Multiset.coe_eq_coe.mpr (List.perm_insertionSort _ _)
    have hsplit : (out_values.filter (fun x => x == vm) : Multiset ℚ) +
        (out_values.filter (fun x => !(x == vm)) : Multiset ℚ) =
        (out_values : Multiset ℚ) := by
      rw [Multiset.coe_add]
      exact Multiset.coe_eq_coe.mpr (List.filter_append_perm _ _)
    apply Multiset.ext.mpr
    intro a
    have hcount := congrArg (Multiset.count a) this
    have hcount2 := congrArg (Multiset.count a) hsorted
    have hcount3 := congrArg (Multiset.count a) hsplit
    simp [List.count_append] at hcount hcount2 hcount3 ⊢
    omega
  · -- maker fees
    intro p hp
    rcases l5 p hp with hmem | hgood
    · exact absurd hmem (by simp)
    · exact hgood

/-! ### Pass 1 of the linkage analysis
(`bin/analyze_jmtxs.py::extract_maker_addresses_from_tx`, lines 27-39)

The loop consumes, for each maker-group input value, the first not-yet
consumed physical input with that value: `i = vin_values.index(value);
vin_values[i] = None`.  Only the index bookkeeping matters for the claims;
the prevout resolution it guards is an external call. -/

/-- `vin_values.index(value)` followed by `vin_values[i] = None`; `none` is
the `ValueError` of a failed `index` lookup. -/
def mark_first_input (v : ℚ) : List (Option ℚ) → Option (List (Option ℚ))
  | [] => none
  | x :: xs =>
    if x = some v then some (none :: xs)
    else (mark_first_input v xs).map (fun r => x :: r)

/-- The whole Pass-1 consumption loop over the flattened maker input
values. -/
def consume_input_values : List ℚ → List (Option ℚ) → Option (List (Option ℚ))
  | [], avail => some avail
  | v :: vs, avail =>
    match mark_first_input v avail with
    | none => none
    | some avail' => consume_input_values vs avail'

/-! ### `UnmixedJoinMarketTx` (lines 130-159) -/

/-- A transaction output as the scoring code sees it: a value and the
addresses of its `scriptPubKey`. -/
structure UVout where
  value : ℚ
  addresses : List String
deriving DecidableEq, Repr

def get_vout_addresses (vout : UVout) : List String := vout.addresses

/-- `self.mixed_vouts`: outputs carrying the mix value (line 61). -/
def mixed_vouts (vouts : List UVout) (value_mixed : ℚ) : List UVout :=
  vouts.filter (fun vout => vout.value == value_mixed)

/-- `self.possible_taker_mixed_vouts` (lines 139-144): mix-value outputs
whose address set does not intersect the maker-address set. -/
def possible_taker_mixed_vouts (vouts : List UVout) (value_mixed : ℚ)
    (maker_addresses : List String) : List UVout :=
  (mixed_vouts vouts value_mixed).filter
    (fun vout => !(maker_addresses.any
      (fun a => (get_vout_addresses vout).contains a)))

/-- `UnmixedJoinMarketTx.unmix_level` (lines 150-159).  `num_parties` is
`len(self.pairs)`; Python's int subtraction and true division are exact
integer/rational arithmetic here. -/
def unmix_level (pairs : List ValuePair) (vouts : List UVout)
    (value_mixed : ℚ) (maker_addresses : List String) : Option ℚ :=
  let possible_takers :=
    (possible_taker_mixed_vouts vouts value_mixed maker_addresses).length
  if possible_takers = 0 then none
  else
    let possible_makers : ℤ := (pairs.length : ℤ) - (possible_takers : ℤ)
    some ((possible_makers : ℚ) / ((pairs.length : ℚ) - 1))

/-- The two deterministic stages run in sequence on the same value lists:
`check_potential_joinmarket_tx` and then `pair_up_inout_values`, as
`to_joinmarket_tx` does. -/
def classify_and_pair (in_values out_values : List ℚ) :
    Except PairErr (Bool × String) × Except PairErr (List ValuePair) :=
  (check_potential_joinmarket_tx in_values out_values,
   pair_up_inout_values in_values out_values)

/-- The cost-by-bucket-size claimed by the spec for the generator priority
order: `bucketSize² + 0.1·toleranceIndex²` where the bucket size is read off
the pairer's `bucket_sizes = range(1, ...)` list. -/
def claimed_size_cost (bucket_sizes : List ℕ) (p : ℕ × ℕ) : ℚ :=
  ((bucket_sizes.getD p.1 0 * bucket_sizes.getD p.1 0 : ℕ) : ℚ) +
    (1 / 10) * ((p.2 * p.2 : ℕ) : ℚ)

/-! ## Taker/maker views of a successful pairing -/

lemma pair_up_ok_views {in_values out_values : List ℚ} {ps : List ValuePair}
    (h : pair_up_inout_values in_values out_values = .ok ps) :
    ∃ t ms, ps = t :: ms ∧ fee_paid_to_pair t < 0 ∧
      (∀ p ∈ ms, MIN_JM_FEE < fee_paid_to_pair p ∧
        fee_paid_to_pair p < MAX_JM_FEE) ∧
      taker_value_pair ps = some t ∧ maker_value_pairs ps = ms := by
  rcases pair_up_ok_spec h with ⟨-, -, t, ms, rfl, hneg, hms⟩
  refine ⟨t, ms, rfl, hneg, hms, ?_, ?_⟩
  · rw [taker_value_pair, List.filter_cons]
    have hd : decide (0 < fee_paid_by_pair t) = true := by
      rw [fee_paid_by_pair]
      simp only [decide_eq_true_eq]
      linarith
    rw [if_pos (by simp [hd])]
    rfl
  · rw [maker_value_pairs, List.filter_cons]
    have hd : ¬ (decide (0 ≤ fee_paid_to_pair t) = true) := by
      simp only [decide_eq_true_eq]
      linarith
    rw [if_neg (by simpa using hd)]
    apply List.filter_eq_self.mpr
    intro p hp
    have h1 := (hms p hp).1
    have h2 := MIN_JM_FEE_pos
    simp only [decide_eq_true_eq]
    linarith

/-! ## The Pass-1 lookup always succeeds on a sub-multiset -/

lemma mark_first_input_spec {v : ℚ} :
    ∀ {avail : List (Option ℚ)}, some v ∈ avail →
      ∃ r, mark_first_input v avail = some r ∧
        ((r.filterMap id : List ℚ) : Multiset ℚ) =
          ((avail.filterMap id : List ℚ) : Multiset ℚ).erase v := by
  intro avail
  induction avail with
  | nil => intro h; simp at h
  | cons x xs ih =>
    intro h
    by_cases hx : x = some v
    · subst hx
      refine ⟨none :: xs, by rw [mark_first_input, if_pos rfl], ?_⟩
      simp [List.filterMap_cons]
    · have hmem : some v ∈ xs := by
        rcases List.mem_cons.mp h with h | h
        · exact absurd h.symm hx
        · exact h
      rcases ih hmem with ⟨r, hr, hrm⟩
      refine ⟨x :: r, ?_, ?_⟩
      · rw [mark_first_input, if_neg hx, hr]
        rfl
      · cases x with
        | none => simpa [List.filterMap_cons] using hrm
        | some w =>
          have hw : w ≠ v := fun hc => hx (by rw [hc])
          simp only [List.filterMap_cons, id]
          rw [← Multiset.cons_coe, ← Multiset.cons_coe, hrm,
            Multiset.erase_cons_tail _ hw]

lemma consume_of_le :
    ∀ {vals : List ℚ} {avail : List (Option ℚ)},
      ((vals : List ℚ) : Multiset ℚ) ≤
        ((avail.filterMap id : List ℚ) : Multiset ℚ) →
      (consume_input_values vals avail).isSome := by
  intro vals
  induction vals with
  | nil => intro avail _; simp [consume_input_values]
  | cons v vs ih =>
    intro avail hle
    have hv : some v ∈ avail := by
      have h1 : v ∈ avail.filterMap id := by
        have : v ∈ ((avail.filterMap id : List ℚ) : Multiset ℚ) :=
          Multiset.mem_of_le hle (by simp)
        simpa using this
      rcases List.mem_filterMap.mp h1 with ⟨x, hx, hid⟩
      cases x with
      | none => simp at hid
      | some w =>
        have : w = v := by simpa using hid
        rw [← this]; exact hx
    rcases mark_first_input_spec hv with ⟨r, hr, hrm⟩
    rw [consume_input_values, hr]
    apply ih
    rw [hrm]
    apply Multiset.le_iff_count.mpr
    intro a
    have hc := Multiset.le_iff_count.mp hle a
    by_cases hav : a = v
    · subst hav
      rw [Multiset.count_erase_self]
      simp [List.count_cons] at hc ⊢
      omega
    · rw [Multiset.count_erase_of_ne hav]
      simp [List.count_cons, hav] at hc ⊢
      omega

lemma filterMap_id_map_some (l : List ℚ) :
    (l.map some).filterMap id = l := by
  induction l with
  | nil => rfl
  | cons x xs ih => simp [List.filterMap_cons, ih]

/-! ## Claim theorems -/

/-- C1: whenever `pair_up_inout_values` succeeds, the multiset union of the
groups' inputs equals the original input-value multiset and the multiset
union of the groups' outputs equals the original output-value multiset — the
groups are disjoint and no value is created, destroyed, duplicated or
dropped. -/
theorem C1_pair_up_round_trip (in_values out_values : List ℚ)
    (ps : List ValuePair)
    (h : pair_up_inout_values in_values out_values = .ok ps) :
    ((ps.flatMap (fun p => p.1) : List ℚ) : Multiset ℚ) =
      (in_values : Multiset ℚ) ∧
    ((ps.flatMap (fun p => p.2) : List ℚ) : Multiset ℚ) =
      (out_values : Multiset ℚ) :=
  ⟨(pair_up_ok_spec h).1, (pair_up_ok_spec h).2.1⟩

unseal Rat.add Rat.sub Rat.mul Rat.inv in
theorem C1_pair_up_round_trip_witness :
    pair_up_inout_values [11/10, 11/10, 1254/1000]
      [1, 1, 1, 101/1000, 101/1000, 5/100] =
      .ok [([627/500], [1, 1/20]), ([11/10], [1, 101/1000]),
           ([11/10], [1, 101/1000])] ∧
    ((([([627/500], [1, 1/20]), ([11/10], [1, 101/1000]),
        ([11/10], [1, 101/1000])] : List ValuePair).flatMap
          (fun p => p.1) : List ℚ) : Multiset ℚ) =
      (([11/10, 11/10, 1254/1000] : List ℚ) : Multiset ℚ) ∧
    ((([([627/500], [1, 1/20]), ([11/10], [1, 101/1000]),
        ([11/10], [1, 101/1000])] : List ValuePair).flatMap
          (fun p => p.2) : List ℚ) : Multiset ℚ) =
      (([1, 1, 1, 101/1000, 101/1000, 5/100] : List ℚ) : Multiset ℚ) :=
  ⟨by decide,
   (C1_pair_up_round_trip [11/10, 11/10, 1254/1000] [1, 1, 1, 101/1000, 101/1000, 5/100] [([627/500], [1, 1/20]), ([11/10], [1, 101/1000]), ([11/10], [1, 101/1000])] (by decide)).1,
   (C1_pair_up_round_trip [11/10, 11/10, 1254/1000] [1, 1, 1, 101/1000, 101/1000, 5/100] [([627/500], [1, 1/20]), ([11/10], [1, 101/1000]), ([11/10], [1, 101/1000])] (by decide)).2⟩

/-- C2: for every successful run of the pairer, every maker group's net
value flow `Σ outputs − Σ inputs` lies strictly between `MIN_JM_FEE` and
`MAX_JM_FEE`. -/
theorem C2_maker_fee_band (in_values out_values : List ℚ)
    (ps : List ValuePair)
    (h : pair_up_inout_values in_values out_values = .ok ps) :
    ∀ p ∈ maker_value_pairs ps,
      MIN_JM_FEE < fee_paid_to_pair p ∧ fee_paid_to_pair p < MAX_JM_FEE := by
  rcases pair_up_ok_views h with ⟨t, ms, rfl, -, hms, -, hmk⟩
  rw [hmk]
  exact hms

unseal Rat.add Rat.sub Rat.mul Rat.inv in
theorem C2_maker_fee_band_witness :
    pair_up_inout_values [11/10, 11/10, 1254/1000]
      [1, 1, 1, 101/1000, 101/1000, 5/100] =
      .ok [([627/500], [1, 1/20]), ([11/10], [1, 101/1000]),
           ([11/10], [1, 101/1000])] ∧
    ∀ p ∈ maker_value_pairs
        [([627/500], [1, 1/20]), ([11/10], [1, 101/1000]),
         ([11/10], [1, 101/1000])],
      MIN_JM_FEE < fee_paid_to_pair p ∧ fee_paid_to_pair p < MAX_JM_FEE :=
  ⟨by decide, C2_maker_fee_band [11/10, 11/10, 1254/1000] [1, 1, 1, 101/1000, 101/1000, 5/100] [([627/500], [1, 1/20]), ([11/10], [1, 101/1000]), ([11/10], [1, 101/1000])] (by decide)⟩

/-- C5: a successful pairing has exactly one group with strictly negative
net flow — the taker, which sits at the head — all other groups have
nonnegative net flow, `taker_value_pair` picks exactly that head group, and
`maker_value_pairs` is exactly the rest, so the two views partition the
groups. -/
theorem C5_unique_taker (in_values out_values : List ℚ)
    (ps : List ValuePair)
    (h : pair_up_inout_values in_values out_values = .ok ps) :
    ∃ t ms, ps = t :: ms ∧ fee_paid_to_pair t < 0 ∧
      (∀ p ∈ ms, 0 ≤ fee_paid_to_pair p) ∧
      ps.countP (fun p => decide (fee_paid_to_pair p < 0)) = 1 ∧
      taker_value_pair ps = some t ∧ maker_value_pairs ps = ms := by
  rcases pair_up_ok_views h with ⟨t, ms, rfl, hneg, hms, htk, hmk⟩
  refine ⟨t, ms, rfl, hneg, ?_, ?_, htk, hmk⟩
  · intro p hp
    have h1 := (hms p hp).1
    have h2 := MIN_JM_FEE_pos
    linarith
  · rw [List.countP_cons]
    have hz : ms.countP (fun p => decide (fee_paid_to_pair p < 0)) = 0 := by
      apply List.countP_eq_zero.mpr
      intro p hp
      have h1 := (hms p hp).1
      have h2 := MIN_JM_FEE_pos
      simp only [decide_eq_true_eq]
      intro hc
      linarith
    rw [hz]
    simp [hneg]

unseal Rat.add Rat.sub Rat.mul Rat.inv in
theorem C5_unique_taker_witness :
    pair_up_inout_values [11/10, 11/10, 1254/1000]
      [1, 1, 1, 101/1000, 101/1000, 5/100] =
      .ok [([627/500], [1, 1/20]), ([11/10], [1, 101/1000]),
           ([11/10], [1, 101/1000])] ∧
    ∃ t ms,
      ([([627/500], [1, 1/20]), ([11/10], [1, 101/1000]),
        ([11/10], [1, 101/1000])] : List ValuePair) = t :: ms ∧
      fee_paid_to_pair t < 0 ∧
      (∀ p ∈ ms, 0 ≤ fee_paid_to_pair p) ∧
      ([([627/500], [1, 1/20]), ([11/10], [1, 101/1000]),
        ([11/10], [1, 101/1000])] : List ValuePair).countP
        (fun p => decide (fee_paid_to_pair p < 0)) = 1 ∧
      taker_value_pair
        [([627/500], [1, 1/20]), ([11/10], [1, 101/1000]),
         ([11/10], [1, 101/1000])] = some t ∧
      maker_value_pairs
        [([627/500], [1, 1/20]), ([11/10], [1, 101/1000]),
         ([11/10], [1, 101/1000])] = ms :=
  ⟨by decide, C5_unique_taker [11/10, 11/10, 1254/1000] [1, 1, 1, 101/1000, 101/1000, 5/100] [([627/500], [1, 1/20]), ([11/10], [1, 101/1000]), ([11/10], [1, 101/1000])] (by decide)⟩

/-- C10: for a successful pairing the multiset of all maker-group input
values is a sub-multiset of the transaction's input-value list, and the
Pass-1 seeding loop of `extract_maker_addresses_from_tx` — which looks up a
not-yet-consumed physical input for each maker-group input value — never
fails its `index` lookup. -/
theorem C10_pass1_lookup_safe (in_values out_values : List ℚ)
    (ps : List ValuePair)
    (h : pair_up_inout_values in_values out_values = .ok ps) :
    (((maker_value_pairs ps).flatMap (fun p => p.1) : List ℚ) : Multiset ℚ) ≤
      (in_values : Multiset ℚ) ∧
    (consume_input_values ((maker_value_pairs ps).flatMap (fun p => p.1))
      (in_values.map some)).isSome := by
  have hcons := (pair_up_ok_spec h).1
  rcases pair_up_ok_views h with ⟨t, ms, rfl, -, -, -, hmk⟩
  rw [hmk]
  have hle : ((ms.flatMap (fun p => p.1) : List ℚ) : Multiset ℚ) ≤
      (in_values : Multiset ℚ) := by
    apply Multiset.le_iff_count.mpr
    intro a
    have hc := congrArg (Multiset.count a) hcons
    simp [List.count_append] at hc ⊢
    omega
  refine ⟨hle, ?_⟩
  apply consume_of_le
  rw [filterMap_id_map_some]
  exact hle

unseal Rat.add Rat.sub Rat.mul Rat.inv in
theorem C10_pass1_lookup_safe_witness :
    pair_up_inout_values [11/10, 11/10, 1254/1000]
      [1, 1, 1, 101/1000, 101/1000, 5/100] =
      .ok [([627/500], [1, 1/20]), ([11/10], [1, 101/1000]),
           ([11/10], [1, 101/1000])] ∧
    ((((maker_value_pairs
        [([627/500], [1, 1/20]), ([11/10], [1, 101/1000]),
         ([11/10], [1, 101/1000])]).flatMap
          (fun p => p.1) : List ℚ) : Multiset ℚ) ≤
      (([11/10, 11/10, 1254/1000] : List ℚ) : Multiset ℚ) ∧
    (consume_input_values
      ((maker_value_pairs
        [([627/500], [1, 1/20]), ([11/10], [1, 101/1000]),
         ([11/10], [1, 101/1000])]).flatMap (fun p => p.1))
      (([11/10, 11/10, 1254/1000] : List ℚ).map some)).isSome) :=
  ⟨by decide, C10_pass1_lookup_safe [11/10, 11/10, 1254/1000] [1, 1, 1, 101/1000, 101/1000, 5/100] [([627/500], [1, 1/20]), ([11/10], [1, 101/1000]), ([11/10], [1, 101/1000])] (by decide)⟩

/-- C3: for a marked transaction with `P = len(pairs)` parties — with the
structural well-formedness that the transaction carries exactly `P`
mix-value outputs and `P ≥ 2`, both guaranteed for pipeline-produced
transactions (`num_parties` counts the mix outputs and the classifier
requires their count to exceed 2) — letting `U` be the number of mix-value
outputs whose address set avoids the maker-address set: `unmix_level` is
`None` iff `U = 0` (never coerced to 0), and otherwise equals
`(P − U)/(P − 1)`, which lies in `[0, 1]`. -/
theorem C3_unmix_level (pairs : List ValuePair) (vouts : List UVout)
    (value_mixed : ℚ) (maker_addresses : List String)
    (hP : (mixed_vouts vouts value_mixed).length = pairs.length)
    (hP2 : 2 ≤ pairs.length) :
    (unmix_level pairs vouts value_mixed maker_addresses = none ↔
      (possible_taker_mixed_vouts vouts value_mixed maker_addresses).length
        = 0) ∧
    ∀ q, unmix_level pairs vouts value_mixed maker_addresses = some q →
      q = ((pairs.length : ℚ) -
          ((possible_taker_mixed_vouts vouts value_mixed
            maker_addresses).length : ℚ)) / ((pairs.length : ℚ) - 1) ∧
      0 ≤ q ∧ q ≤ 1 := by
  have hUP : (possible_taker_mixed_vouts vouts value_mixed
      maker_addresses).length ≤ pairs.length := by
    rw [← hP, possible_taker_mixed_vouts]
    exact List.length_filter_le _ _
  constructor
  · rw [unmix_level]
    by_cases h0 : (possible_taker_mixed_vouts vouts value_mixed
        maker_addresses).length = 0
    · rw [if_pos h0]
      simp [h0]
    · rw [if_neg h0]
      simp [h0]
  · intro q hq
    rw [unmix_level] at hq
    by_cases h0 : (possible_taker_mixed_vouts vouts value_mixed
        maker_addresses).length = 0
    · rw [if_pos h0] at hq
      exact absurd hq (by simp)
    · rw [if_neg h0] at hq
      injection hq with hq
      have hq' : q = ((pairs.length : ℚ) -
          ((possible_taker_mixed_vouts vouts value_mixed
            maker_addresses).length : ℚ)) / ((pairs.length : ℚ) - 1) := by
        rw [← hq]
        push_cast
        ring
      have hden : (0 : ℚ) < (pairs.length : ℚ) - 1 := by
        have : (2 : ℚ) ≤ (pairs.length : ℚ) := by exact_mod_cast hP2
        linarith
      have hnum0 : (0 : ℚ) ≤ (pairs.length : ℚ) -
          ((possible_taker_mixed_vouts vouts value_mixed
            maker_addresses).length : ℚ) := by
        have : ((possible_taker_mixed_vouts vouts value_mixed
            maker_addresses).length : ℚ) ≤ (pairs.length : ℚ) := by
          exact_mod_cast hUP
        linarith
      have hU1 : (1 : ℚ) ≤ ((possible_taker_mixed_vouts vouts value_mixed
          maker_addresses).length : ℚ) := by
        have : 1 ≤ (possible_taker_mixed_vouts vouts value_mixed
            maker_addresses).length := by omega
        exact_mod_cast this
      refine ⟨hq', ?_, ?_⟩
      · rw [hq']
        exact div_nonneg hnum0 (le_of_lt hden)
      · rw [hq']
        rw [div_le_one hden]
        linarith

theorem C3_unmix_level_witness :
    (mixed_vouts [⟨1, ["a"]⟩, ⟨1, ["b"]⟩, ⟨1, ["c"]⟩] 1).length =
      ([([], []), ([], []), ([], [])] : List ValuePair).length ∧
    2 ≤ ([([], []), ([], []), ([], [])] : List ValuePair).length ∧
    ((unmix_level [([], []), ([], []), ([], [])]
        [⟨1, ["a"]⟩, ⟨1, ["b"]⟩, ⟨1, ["c"]⟩] 1 ["a"] = none ↔
      (possible_taker_mixed_vouts [⟨1, ["a"]⟩, ⟨1, ["b"]⟩, ⟨1, ["c"]⟩] 1
        ["a"]).length = 0) ∧
    ∀ q, unmix_level [([], []), ([], []), ([], [])]
        [⟨1, ["a"]⟩, ⟨1, ["b"]⟩, ⟨1, ["c"]⟩] 1 ["a"] = some q →
      q = ((([([], []), ([], []), ([], [])] : List ValuePair).length : ℚ) -
          ((possible_taker_mixed_vouts [⟨1, ["a"]⟩, ⟨1, ["b"]⟩, ⟨1, ["c"]⟩] 1
            ["a"]).length : ℚ)) /
          ((([([], []), ([], []), ([], [])] : List ValuePair).length : ℚ) - 1) ∧
      0 ≤ q ∧ q ≤ 1) :=
  ⟨by decide, by decide,
   C3_unmix_level [([], []), ([], []), ([], [])]
     [⟨1, ["a"]⟩, ⟨1, ["b"]⟩, ⟨1, ["c"]⟩] 1 ["a"] (by decide) (by decide)⟩

/-- C4: the classifier and the pairer are deterministic — two runs of
`check_potential_joinmarket_tx` followed by `pair_up_inout_values` on
identical input/output value lists produce exactly the same accept/reject
decision and exactly the same grouping.  In this embedding both stages are
pure functions of the value lists (the source's `Counter` iteration order
and numpy argsort are deterministic as well). -/
theorem C4_deterministic (in_values out_values : List ℚ)
    (r1 r2 : Except PairErr (Bool × String) × Except PairErr (List ValuePair))
    (h1 : r1 = classify_and_pair in_values out_values)
    (h2 : r2 = classify_and_pair in_values out_values) : r1 = r2 := by
  rw [h1, h2]

theorem C4_deterministic_witness :
    classify_and_pair [1, 1] [1, 1] = classify_and_pair [1, 1] [1, 1] :=
  C4_deterministic [1, 1] [1, 1] _ _ rfl rfl

unseal Rat.add Rat.sub Rat.mul Rat.inv in
/-- C6 is false as stated: on input lists whose outputs sum to more than the
inputs (`[1]` vs `[2,2,2]`) the pairer fails through the `assert txfee >= 0`
(an `AssertionError`), which is not the typed `Unpairable` result. -/
theorem C6_counterexample :
    pair_up_inout_values [1] [2, 2, 2] = .error .assertTxfeeNeg ∧
    ∀ r : UnpairableReason,
      PairErr.assertTxfeeNeg ≠ PairErr.unpairable r :=
  ⟨by decide, fun _ h => PairErr.noConfusion h⟩

/-- The tail of the pairer never fails outside the two documented
`Unpairable` reasons once the loop has run on a well-formed state. -/
lemma finish_pairs_cases {txfee : ℚ} {np : ℕ} {st : PairState}
    (hnp : 2 ≤ np) (hnpl : 1 ≤ st.npl) (hmixlen : st.mix.length = st.npl) :
    (∃ ps, finish_pairs txfee np st = .ok ps) ∨
    finish_pairs txfee np st = .error (.unpairable .takerFees) ∨
    finish_pairs txfee np st = .error (.unpairable .changeValues) := by
  rw [finish_pairs]
  by_cases h1 : st.npl = 1
  · rw [if_pos h1, if_neg (by omega : ¬ st.mix.length ≠ st.npl),
      if_neg (by omega : ¬ np = 1)]
    by_cases hg : MIN_JM_FEE <
        (st.inv.sum - (st.chg.sum + st.mix.sum) - txfee) / ((np : ℚ) - 1) ∧
        (st.inv.sum - (st.chg.sum + st.mix.sum) - txfee) / ((np : ℚ) - 1) <
          MAX_JM_FEE
    · rw [if_neg (by simpa using hg)]
      exact .inl ⟨_, rfl⟩
    · rw [if_pos (by simpa using hg)]
      exact .inr (.inl rfl)
  · rw [if_neg h1]
    have hne : st.mix ≠ [] := by
      intro hc
      rw [hc] at hmixlen
      simp at hmixlen
      omega
    rw [if_pos (.inl hne)]
    exact .inr (.inr rfl)

/-- C6 (amended): provided a mix value exists (the getter returns one, with
multiplicity `c > 2`), the transaction fee is nonnegative, and the
change-output count `len(out) − c` lies in `{c−1, c}` — i.e. the three
assertions' preconditions hold — `pair_up_inout_values` either returns a
pairing or fails with the typed `Unpairable` carrying one of the two
documented reasons (taker fee outside the tolerance band; search exhausted
with unconsumed values). -/
theorem C6_typed_failures (in_values out_values : List ℚ) (v : ℚ) (c : ℕ)
    (hv : get_value_mixed_from_values in_values out_values = .ok (some (v, c)))
    (hfee : out_values.sum ≤ in_values.sum)
    (hchg : c - 1 ≤ out_values.length - c ∧ out_values.length - c ≤ c) :
    (∃ ps, pair_up_inout_values in_values out_values = .ok ps) ∨
    pair_up_inout_values in_values out_values =
      .error (.unpairable .takerFees) ∨
    pair_up_inout_values in_values out_values =
      .error (.unpairable .changeValues) := by
  rcases get_value_mixed_inv hv with ⟨hc, hc2⟩
  rw [pair_up_inout_values, hv]
  simp only
  rw [show Option.map Prod.fst (some (v, c)) = some v from rfl]
  rw [_pair_up_inout_values.eq_def]
  simp only [Option.getD_some]
  have hmixlen0 : (out_values.filter (fun x => x == v)).length = c := by
    rw [filter_beq_length_eq_count, hc]
  have hflen : (out_values.filter (fun x => !(x == v))).length =
      out_values.length - c := by
    have hperm := (List.filter_append_perm (fun x => x == v) out_values).length_eq
    rw [List.length_append, hmixlen0] at hperm
    omega
  have hslen : ((out_values.filter (fun x => !(x == v))).insertionSort
      (· ≤ ·)).length = out_values.length - c := by
    rw [(List.perm_insertionSort _ _).length_eq, hflen]
  rw [if_neg (by
    simp only [not_lt]
    linarith)]
  rw [if_neg (not_not_intro (by
    rw [hslen, hmixlen0]
    omega))]
  have hvm0 : ∀ x ∈ out_values.filter (fun x => x == v), x = v := by
    intro x hx
    exact eq_of_beq (List.mem_filter.mp hx).2
  have HG : ∀ pr ∈ gen_bucket_size_dist_pairs
      (List.range' 1 (in_values.length + 1 -
        (out_values.filter (fun x => x == v)).length))
      (((List.range' 4 36).map
        (fun k => MIN_JM_FEE * ((2 ^ k : ℕ) : ℚ))).filter
          (fun d => d < MAX_JM_FEE)),
      pr.2 < MAX_JM_FEE := by
    intro pr hpr
    exact of_decide_eq_true (List.mem_filter.mp (gen_snd_mem_dists hpr)).2
  rcases pair_loop_spec HG (out_values.filter (fun x => x == v)).length
    { npl := (out_values.filter (fun x => x == v)).length,
      inv := in_values,
      mix := out_values.filter (fun x => x == v),
      chg := (out_values.filter (fun x => !(x == v))).insertionSort (· ≤ ·),
      pairs := [] } rfl hvm0 with ⟨l1, l2, l3, l4, l5, l6, l7⟩
  exact finish_pairs_cases (by omega)
    (l6 (by
      show 1 ≤ (out_values.filter (fun x => x == v)).length
      omega)) l1

unseal Rat.add Rat.sub Rat.mul Rat.inv in
theorem C6_typed_failures_witness :
    get_value_mixed_from_values [9] [2, 2, 2, 1, 1] = .ok (some (2, 3)) ∧
    ([2, 2, 2, 1, 1] : List ℚ).sum ≤ ([9] : List ℚ).sum ∧
    (3 - 1 ≤ ([2, 2, 2, 1, 1] : List ℚ).length - 3 ∧
      ([2, 2, 2, 1, 1] : List ℚ).length - 3 ≤ 3) ∧
    ((∃ ps, pair_up_inout_values [9] [2, 2, 2, 1, 1] = .ok ps) ∨
     pair_up_inout_values [9] [2, 2, 2, 1, 1] =
       .error (.unpairable .takerFees) ∨
     pair_up_inout_values [9] [2, 2, 2, 1, 1] =
       .error (.unpairable .changeValues)) :=
  ⟨by decide, by decide, by decide,
   C6_typed_failures [9] [2, 2, 2, 1, 1] 2 3 (by decide) (by decide)
     (by decide)⟩

unseal Rat.add Rat.sub Rat.mul Rat.inv in
/-- C7 is false as stated: with the pairer's real parameters for a 4-input
3-party transaction — `bucket_sizes = range(1, 3) = [1, 2]` and the 11
tolerance values — the enumeration is not ascending in
`bucketSize² + 0.1·toleranceIndex²`: the generator yields bucket size 2 at
tolerance index 0 (claimed cost 4) before bucket size 1 at tolerance index 4
(claimed cost 2.6), because the implementation squares the 0-based bucket
*index*, not the bucket size. -/
theorem C7_counterexample :
    List.range' 1 (4 + 1 - 3) = [1, 2] ∧
    (((List.range' 4 36).map
        (fun k => MIN_JM_FEE * ((2 ^ k : ℕ) : ℚ))).filter
          (fun d => d < MAX_JM_FEE)).length = 11 ∧
    ¬ (genIdxPairs 2 11).Pairwise
        (fun p q => claimed_size_cost [1, 2] p ≤ claimed_size_cost [1, 2] q) :=
  ⟨by decide, by decide, by decide⟩

/-- C7 (amended): the pairer enumerates `(bucket, tolerance)` index pairs in
ascending order of `bucketIndex² + 0.1·toleranceIndex²` — since
`bucket_sizes = range(1, ...)`, the squared quantity is `bucketSize − 1`,
the 0-based rank of the bucket size, not the bucket size itself — and the
enumeration is a permutation of the full index grid, so small bucket rank is
favored first and small tolerance second. -/
theorem C7_gen_order_amended (num_bucket_sizes num_dists : ℕ) :
    (genIdxPairs num_bucket_sizes num_dists).Pairwise
      (fun p q => bucket_dist_cost p ≤ bucket_dist_cost q) ∧
    (genIdxPairs num_bucket_sizes num_dists).Perm
      (indexGrid num_bucket_sizes num_dists) := by
  constructor
  · haveI : IsTotal (ℕ × ℕ)
        (fun p q => bucket_dist_cost p ≤ bucket_dist_cost q) :=
      ⟨fun a b => le_total _ _⟩
    haveI : IsTrans (ℕ × ℕ)
        (fun p q => bucket_dist_cost p ≤ bucket_dist_cost q) :=
      ⟨fun a b c h1 h2 => le_trans h1 h2⟩
    exact List.sorted_insertionSort _ _
  · exact List.perm_insertionSort _ _

unseal Rat.add Rat.sub Rat.mul Rat.inv in
/-- C8 is false as stated: Scenario A's outputs sum to 5.396 while its
inputs sum only to 5.25, so the pairer hits `assert txfee >= 0` (an
`AssertionError`) instead of producing the expected 5 groups. -/
theorem C8_counterexample :
    pair_up_inout_values
      [11/10, 11/10, 11/10, 11/10, 2/10, 2/10, 2/10, 2/10, 5/100]
      [1, 1, 1, 1, 1, 99/1000, 99/1000, 99/1000, 99/1000] =
      .error .assertTxfeeNeg := by decide

unseal Rat.add Rat.sub Rat.mul Rat.inv in
/-- C8 (amended): with the scenario's maker change corrected from 0.099 to
0.101 (so each maker earns, rather than loses, 0.001) and the taker's small
input from 0.05 to 0.45 (so money is conserved), the 5-party run succeeds
with 4 maker groups `{1.10 → 1.00 + 0.101}` (fee exactly 0.001, positive)
and the taker group `{0.20, 0.20, 0.20, 0.20, 0.45 → 1.00}` at the head,
with negative net flow. -/
theorem C8_scenario_amended :
    pair_up_inout_values
      [11/10, 11/10, 11/10, 11/10, 2/10, 2/10, 2/10, 2/10, 45/100]
      [1, 1, 1, 1, 1, 101/1000, 101/1000, 101/1000, 101/1000] =
      .ok [([2/10, 2/10, 2/10, 2/10, 45/100], [1]),
           ([11/10], [1, 101/1000]), ([11/10], [1, 101/1000]),
           ([11/10], [1, 101/1000]), ([11/10], [1, 101/1000])] ∧
    fee_paid_to_pair ([11/10], [1, 101/1000]) = 1/1000 ∧
    MIN_JM_FEE < (1/1000 : ℚ) ∧ (1/1000 : ℚ) < MAX_JM_FEE ∧
    fee_paid_to_pair ([2/10, 2/10, 2/10, 2/10, 45/100], [1]) < 0 :=
  ⟨by decide, by decide, by decide, by decide, by decide⟩

unseal Rat.add Rat.sub Rat.mul Rat.inv in
/-- C9 is false as stated: a 2-input/2-output transaction is rejected, but
with the insufficient-*outputs* reason, because the output check precedes
the input check. -/
theorem C9_counterexample :
    check_potential_joinmarket_tx [1, 1] [1, 1] =
      .ok (false, "MIN_NUM_OUTPUTS") ∧
    "MIN_NUM_OUTPUTS" ≠ "MIN_NUM_INPUTS" :=
  ⟨by decide, by decide⟩

/-- C9 (amended): every transaction with 2 inputs and 2 outputs is rejected
by the classifier, with the insufficient-outputs reason `"MIN_NUM_OUTPUTS"`
(the output-count check runs before the input-count check). -/
theorem C9_two_in_two_out (vin_values vout_values : List ℚ)
    (_h1 : vin_values.length = 2) (h2 : vout_values.length = 2) :
    check_potential_joinmarket_tx vin_values vout_values =
      .ok (false, "MIN_NUM_OUTPUTS") := by
  rw [check_potential_joinmarket_tx]
  rw [if_pos (by
    rw [h2]
    norm_num [MIN_NUM_OUTPUTS])]

theorem C9_two_in_two_out_witness :
    ([3/2, 3/2] : List ℚ).length = 2 ∧ ([1/2, 1/2] : List ℚ).length = 2 ∧
    check_potential_joinmarket_tx [3/2, 3/2] [1/2, 1/2] =
      .ok (false, "MIN_NUM_OUTPUTS") :=
  ⟨by decide, by decide,
   C9_two_in_two_out [3/2, 3/2] [1/2, 1/2] (by decide) (by decide)⟩

end JmUnmixer
